import Mathlib

/-!
Verification development for the `coldpress` quantile-packet codec.

The Python source is shallowly embedded over exact rationals (`ℚ` stands for
the real-valued float arithmetic of the source; every constant such as
`0.0002` is the exact rational the source literal denotes).  Fallible Python
code is embedded in the `Except PyErr` monad, with one constructor per Python
exception class that the relevant code paths can raise.  Machine bytes are
embedded as natural numbers (`ℕ`), packets as `List ℕ`.
-/

set_option maxRecDepth 4000

namespace ColdPress

/-- Python exception classes raised by the embedded code paths. -/
inductive PyErr where
  | valueError
  | indexError
  | structError
  | typeError
  | nameError
  deriving DecidableEq, Repr

instance {e a : Type} [DecidableEq e] [DecidableEq a] :
    DecidableEq (Except e a) := fun x y =>
  match x, y with
  | .error u, .error v =>
    if h : u = v then .isTrue (by rw [h]) else .isFalse (by simp [h])
  | .ok u, .ok v =>
    if h : u = v then .isTrue (by rw [h]) else .isFalse (by simp [h])
  | .error _, .ok _ => .isFalse (by simp)
  | .ok _, .error _ => .isFalse (by simp)

/-- Python's built-in `round` (also `np.round`) on a real number:
round-half-to-even, returning an integer. -/
def pyRound (x : ℚ) : ℤ :=
  let f := ⌊x⌋
  let r := x - f
  if r < 1/2 then f
  else if 1/2 < r then f + 1
  else if f % 2 = 0 then f else f + 1

/-- Python sequence indexing `l[i]` with negative-index wrap-around;
raises `IndexError` when out of bounds. -/
def pyGet (l : List ℚ) (i : ℤ) : Except PyErr ℚ :=
  if hi : i < 0 then
    if h : 0 ≤ (l.length : ℤ) + i then
      .ok (l.get ⟨((l.length : ℤ) + i).toNat, by omega⟩)
    else .error .indexError
  else
    if h : i < (l.length : ℤ) then .ok (l.get ⟨i.toNat, by omega⟩)
    else .error .indexError

/-- Embedding of `struct.pack('<H', x)`: two little-endian bytes (low byte first);
raises `struct.error` when `x` is not an unsigned 16-bit value. -/
def packU16LE (x : ℤ) : Except PyErr (ℕ × ℕ) :=
  if 0 ≤ x ∧ x < 65536 then .ok (x.toNat % 256, x.toNat / 256)
  else .error .structError

/-- Embedding of `struct.pack('>H', x)`: two big-endian bytes (high byte first);
raises `struct.error` when `x` is not an unsigned 16-bit value. -/
def packU16BE (x : ℤ) : Except PyErr (ℕ × ℕ) :=
  if 0 ≤ x ∧ x < 65536 then .ok (x.toNat / 256, x.toNat % 256)
  else .error .structError

/-- Insert into an ascending list, keeping it ascending. -/
def insertAsc (x : ℚ) : List ℚ → List ℚ
  | [] => [x]
  | y :: ys => if x ≤ y then x :: y :: ys else y :: insertAsc x ys

/-- Embedding of `np.sort`: sort ascending (insertion sort; only the multiset of values
and the ascending order matter). -/
def npSort (l : List ℚ) : List ℚ := l.foldr insertAsc []

/-!  ## PacketCodec — decode (src/coldpress/decode.py, `decode_quantiles`)  -/

/-- The payload walk of `decode_quantiles` (decode.py lines 19–32), returning
the list of delta magnitudes.  A byte below 255 is a direct one-byte delta; a
byte 255 introduces a big-endian two-byte delta (`struct.unpack('>H', ...)`
raises `struct.error` when fewer than two bytes remain); the walk stops when
the current byte and all remaining bytes are zero. -/
def decodeDeltas : List ℕ → Except PyErr (List ℕ)
  | [] => .ok []
  | b :: rest@(hi :: lo :: rest2) =>
    if b = 0 ∧ rest.all (· = 0) then .ok []
    else if b < 255 then
      match decodeDeltas rest with
      | .error e => .error e
      | .ok ds => .ok (b :: ds)
    else
      match decodeDeltas rest2 with
      | .error e => .error e
      | .ok ds => .ok ((256 * hi + lo) :: ds)
  | b :: rest =>
    if b = 0 ∧ rest.all (· = 0) then .ok []
    else if b < 255 then
      match decodeDeltas rest with
      | .error e => .error e
      | .ok ds => .ok (b :: ds)
    else .error .structError

/-- Embedding of `decode_quantiles` (decode.py lines 5–36).  Byte 0 is the epsilon code,
bytes 1–4 hold `xmin_int`, `xmax_int` as little-endian unsigned 16-bit values,
bytes 5.. are the delta payload.  The decoded array is the running sum of the
deltas starting at `zmin`, with `zmax` appended at the end.  An empty packet
raises `IndexError` at `packet[0]`; a packet of 1–4 bytes raises
`struct.error` at `struct.unpack('<HH', packet[1:5])`. -/
def decode_quantiles : List ℕ → Except PyErr (List ℚ)
  | e :: a :: b :: c :: d :: rest =>
    let eps : ℚ := (e : ℚ) * 0.00001
    let xmin_int : ℕ := a + 256 * b
    let xmax_int : ℕ := c + 256 * d
    let zmin : ℚ := (xmin_int : ℚ) * 0.0002 - 0.01
    let zmax : ℚ := (xmax_int : ℚ) * 0.0002 - 0.01
    match decodeDeltas rest with
    | .error err => .error err
    | .ok ds => .ok (ds.scanl (fun z (dn : ℕ) => z + (dn : ℚ) * eps) zmin ++ [zmax])
  | [] => .error .indexError
  | _ => .error .structError

/-!  ## PacketCodec — encode (src/coldpress/encode.py, `encode_quantiles`)  -/

/-- Embedding of `np.sort(quantiles[1:-1] - quantiles[:-2])` (encode.py line 75): the
ascending list of gaps between consecutive quantiles, the final gap excluded
(the last quantile is stored in the header, not as a delta). -/
def quantileGaps (q : List ℚ) : List ℚ :=
  npSort (List.zipWith (· - ·) ((q.drop 1).dropLast) ((q.dropLast).dropLast))

/-- Embedding of `max_big_gaps = (packetsize-(Nq+3)) // 2` (encode.py line 73);
Python `//` is floor division. -/
def maxBigGapsOf (packetsize : ℤ) (Nq : ℕ) : ℤ :=
  (packetsize - ((Nq : ℤ) + 3)).fdiv 2

/-- Encode.py lines 73–77: gap threshold lookup `gaps[-max_big_gaps-1]` and
`eps_min = 0.00001*np.ceil(100000*gapthreshold/254)`.  The lookup raises
`IndexError` on a too-short gaps array. -/
def epsMinOf (q : List ℚ) (packetsize : ℤ) : Except PyErr ℚ :=
  let gaps := quantileGaps q
  let max_big_gaps := maxBigGapsOf packetsize q.length
  match pyGet gaps (-max_big_gaps - 1) with
  | .error e => .error e
  | .ok gapthreshold => .ok (0.00001 * (⌈100000 * gapthreshold / 254⌉ : ℤ))

/-- Encode.py line 82: `eps_min2 = 0.00001*np.ceil(100000*gaps[-1]/(256**2-1))`,
the minimum epsilon letting the largest gap fit a two-byte escape record. -/
def epsMin2Of (q : List ℚ) : Except PyErr ℚ :=
  let gaps := quantileGaps q
  match pyGet gaps (-1) with
  | .error e => .error e
  | .ok mx => .ok (0.00001 * (⌈100000 * mx / (256 ^ 2 - 1)⌉ : ℤ))

/-- One iteration of the payload loop (encode.py lines 92–99): the rounded
delta `d = int(round((z - prev)/eps))` is emitted as one byte when
`0 ≤ d ≤ 254`, else as the escape record `255` followed by
`struct.pack('>H', d)`; `prev` advances by the reconstructed amount `d*eps`. -/
def encodeDeltaStep (eps prev z : ℚ) : Except PyErr (List ℕ × ℚ) :=
  let d := pyRound ((z - prev) / eps)
  if 0 ≤ d ∧ d ≤ 254 then .ok ([d.toNat], prev + d * eps)
  else
    match packU16BE d with
    | .error e => .error e
    | .ok (hi, lo) => .ok ([255, hi, lo], prev + d * eps)

/-- The full payload loop of encode.py lines 90–99 over the interior
quantiles. -/
def buildPayload (eps : ℚ) : ℚ → List ℚ → Except PyErr (List ℕ)
  | _, [] => .ok []
  | prev, z :: zs =>
    match encodeDeltaStep eps prev z with
    | .error e => .error e
    | .ok (bs, prev2) =>
      match buildPayload eps prev2 zs with
      | .error e => .error e
      | .ok rest => .ok (bs ++ rest)

/-- Embedding of `max(abs(shift))` for the validation step (encode.py line 116): Python
`max()` raises `ValueError` on an empty sequence. -/
def listMax (l : List ℚ) : Except PyErr ℚ :=
  match l with
  | [] => .error .valueError
  | x :: xs => .ok (xs.foldl max x)

/-- Embedding of `encode_quantiles` (encode.py lines 49–119): returns the payload length
and the `packetsize`-byte packet.  Every `raise ValueError` in the source is
an `.error .valueError`; out-of-range `struct.pack` arguments raise
`struct.error`; the gap-threshold lookup can raise `IndexError`. -/
def encode_quantiles (quantiles : List ℚ) (packetsize : ℤ) (validate : Bool)
    (tolerance : ℚ) : Except PyErr (ℕ × List ℕ) :=
  if (quantiles.length : ℤ) > packetsize - 3 then .error .valueError else
  match pyGet quantiles 0 with
  | .error e => .error e
  | .ok zmin =>
  match pyGet quantiles (-1) with
  | .error e => .error e
  | .ok zmax =>
    let xmin_int : ℤ := ⌊(zmin + 0.01) / 0.0002⌋
    let xmax_int : ℤ := ⌈(zmax + 0.01) / 0.0002⌉
    let zmin_rec : ℚ := (xmin_int : ℚ) * 0.0002 - 0.01
    match epsMinOf quantiles packetsize with
    | .error e => .error e
    | .ok eps_min =>
    if eps_min > 0.00255 then .error .valueError else
    match epsMin2Of quantiles with
    | .error e => .error e
    | .ok eps_min2 =>
      let eps : ℚ := max 0.00001 (max eps_min eps_min2)
      if pyRound (eps * 100000) > 255 then .error .valueError else
      match buildPayload eps zmin_rec ((quantiles.drop 1).dropLast) with
      | .error e => .error e
      | .ok payload =>
        let L := payload.length
        if (L : ℤ) > packetsize - 5 then .error .valueError else
        match packU16LE xmin_int with
        | .error e => .error e
        | .ok (a1, a2) =>
        match packU16LE xmax_int with
        | .error e => .error e
        | .ok (b1, b2) =>
          let packet : List ℕ :=
            (pyRound (eps * 100000)).toNat :: a1 :: a2 :: b1 :: b2 ::
              (payload ++ List.replicate ((packetsize - 5 - (L : ℤ)).toNat) 0)
          if validate then
            match decode_quantiles packet with
            | .error e => .error e
            | .ok qrecovered =>
              if qrecovered.length ≠ quantiles.length then .error .valueError else
              let shift := List.zipWith (· - ·) ((quantiles.drop 1).dropLast)
                ((qrecovered.drop 1).dropLast)
              match listMax (shift.map abs) with
              | .error e => .error e
              | .ok m =>
                if m > tolerance then .error .valueError else .ok (L, packet)
          else .ok (L, packet)

/-!  ## Numpy helpers used by the extractors and the reconstructor  -/

/-- Embedding of `np.linspace(a, b, n)` for a non-negative count. -/
def linspaceN (a b : ℚ) (n : ℕ) : List ℚ :=
  if n = 1 then [a]
  else (List.range n).map (fun i => a + (b - a) * i / ((n : ℚ) - 1))

/-- Embedding of `np.linspace(a, b, n)`: raises `ValueError` for a negative count. -/
def linspace (a b : ℚ) (n : ℤ) : Except PyErr (List ℚ) :=
  if n < 0 then .error .valueError else .ok (linspaceN a b n.toNat)

/-- Segment walk for `np.interp`: `x0, y0` is the previous knot. -/
def interpGo (t rt : ℚ) : ℚ → ℚ → List ℚ → List ℚ → ℚ
  | x0, y0, x1 :: xs, y1 :: ys =>
    if t ≤ x1 then
      (if x1 = x0 then y1 else y0 + (y1 - y0) * (t - x0) / (x1 - x0))
    else interpGo t rt x1 y1 xs ys
  | x0, y0, _, _ => if x0 < t then rt else y0

/-- Embedding of `np.interp(t, xp, fp, left, right)` for ascending abscissas `xp`:
piecewise-linear interpolation clamped to `left`/`right` outside the range. -/
def npInterp (xp fp : List ℚ) (lft rt : ℚ) (t : ℚ) : ℚ :=
  match xp, fp with
  | x0 :: xs, y0 :: ys => if t < x0 then lft else interpGo t rt x0 y0 xs ys
  | _, _ => lft

/-- Embedding of `np.cumsum`: running partial sums (without a leading zero). -/
def cumsum (l : List ℚ) : List ℚ := (l.scanl (· + ·) 0).drop 1

/-- Embedding of `np.quantile(a, q, method='linear')` for an ascending non-empty `a` and
`q` in `[0, 1]`: linear interpolation between order statistics. -/
def npQuantileLinear (a : List ℚ) (q : ℚ) : ℚ :=
  let h := q * ((a.length : ℚ) - 1)
  let i := ⌊h⌋.toNat
  let x0 := a.getD i 0
  let x1 := a.getD (i + 1) x0
  x0 + (h - (i : ℚ)) * (x1 - x0)

/-!  ## QuantileExtractor (encode.py, `samples_to_quantiles` /
`binned_to_quantiles`)

Non-finite floats (`nan`/`inf`) have no rational counterpart; a sample entry
is embedded as `Option ℚ`, `none` standing for a non-finite value, so
`np.isfinite` is `Option.isSome`. -/

/-- Embedding of `samples_to_quantiles` (encode.py lines 4–9): keep finite samples, sort,
take `Nquantiles` evenly spaced empirical quantiles.  `np.linspace` raises
`ValueError` for a negative count; `np.quantile` raises `IndexError` on an
empty array. -/
def samples_to_quantiles (samples : List (Option ℚ)) (Nquantiles : ℤ) :
    Except PyErr (List ℚ) :=
  let zsorted := npSort (samples.filterMap id)
  match linspace 0 1 Nquantiles with
  | .error e => .error e
  | .ok targets =>
    if zsorted.isEmpty then .error .indexError
    else .ok (targets.map (npQuantileLinear zsorted))

/-- Embedding of `binned_to_quantiles` (encode.py lines 12–46).  `np.min`/`np.max` of the
empty nonzero-index list raise `ValueError`; missing grid elements raise
`IndexError`.  The float division `cdf_edges /= cdf_edges[-1]` cannot raise in
numpy; its embedding uses rational division (`x / 0 = 0`), which only
diverges from numpy's `nan` on degenerate inputs no claim touches. -/
def binned_to_quantiles (z_grid : List ℚ) (Pz : List ℚ) (Nquantiles : ℤ) :
    Except PyErr (List ℚ) :=
  let nonzero := (List.range Pz.length).filter (fun i => 0 < Pz.getD i 0)
  if nonzero.length = 1 then
    match pyGet z_grid 1, pyGet z_grid 0 with
    | .ok g1, .ok g0 =>
      match pyGet z_grid (nonzero.headD 0 : ℤ) with
      | .error e => .error e
      | .ok center =>
        let dz := g1 - g0
        linspace (center - dz / 2) (center + dz / 2) Nquantiles
    | .error e, _ => .error e
    | _, .error e => .error e
  else
    match nonzero with
    | [] => .error .valueError
    | _ =>
      let imin := nonzero.headD 0
      let imax := nonzero.getLastD 0
      let zg := (z_grid.drop imin).take (imax + 1 - imin)
      let pz := (Pz.drop imin).take (imax + 1 - imin)
      match pyGet zg 1, pyGet zg 0 with
      | .ok g1, .ok g0 =>
        let dz := g1 - g0
        let edges := (g0 - dz / 2) :: zg.map (· + dz / 2)
        let cdf_edges := 0 :: cumsum (pz.map (· * dz))
        let lastc := cdf_edges.getLastD 0
        let cdfN := cdf_edges.map (· / lastc)
        match linspace 0 1 Nquantiles with
        | .error e => .error e
        | .ok targets =>
          .ok (targets.map (npInterp cdfN edges (edges.headD 0) (edges.getLastD 0)))
      | .error e, _ => .error e
      | _, .error e => .error e

/-!  ## AdaptiveEncoder (encode.py, `_batch_encode`)  -/

/-- A batch-encode input: a histogram matrix with its grid, or a matrix of
per-row redshift samples (encode.py lines 121–136, 175–189). -/
inductive Data where
  | hist (zvector : List ℚ) (pdf : List (List ℚ))
  | samp (rows : List (List (Option ℚ)))

/-- The per-row validity mask of `_batch_encode` (encode.py lines 133–136):
positive total mass for histograms, all-finite entries for samples. -/
def validOf : Data → List Bool
  | .hist _ pdf => pdf.map (fun row => decide (0 < row.sum))
  | .samp rows => rows.map (fun r => r.all Option.isSome)

/-- The quantile extraction performed inside the search loop for row `i`
(encode.py lines 147–150). -/
def extractFor : Data → ℕ → ℤ → Except PyErr (List ℚ)
  | .hist zv pdf, i, n => binned_to_quantiles zv (pdf.getD i []) n
  | .samp rows, i, n => samples_to_quantiles (rows.getD i []) n

/-- The per-row `while True:` search loop of `_batch_encode` (encode.py lines
144–168), with an explicit fuel counter added by the embedding (`none` means
the fuel ran out; the Python loop has no such counter).  The quantile source
is a parameter `extract` standing for the line 147–150 extraction call.
Failure handling follows the source: only `ValueError` is caught by the
retry policy; with a previous success the last good packet is accepted,
otherwise the quantile count drops by 2; on success the count grows by 2
while the payload is under-full, and an exactly-full payload terminates. -/
def rowLoop (extract : ℤ → Except PyErr (List ℚ)) (packetsize : ℤ)
    (validate : Bool) (tol : ℚ) :
    ℕ → ℤ → Option (List ℕ) → Option (Except PyErr (List ℕ))
  | 0, _, _ => none
  | fuel + 1, nq, lastgood =>
    match extract nq with
    | .error e => some (.error e)
    | .ok q =>
      match encode_quantiles q packetsize validate tol with
      | .error .valueError =>
        match lastgood with
        | some p => some (.ok p)
        | none => rowLoop extract packetsize validate tol fuel (nq - 2) none
      | .error e => some (.error e)
      | .ok (L, packet) =>
        if (L : ℤ) < packetsize - 5 then
          rowLoop extract packetsize validate tol fuel (nq + 2) (some packet)
        else if (L : ℤ) = packetsize - 5 then some (.ok packet)
        else rowLoop extract packetsize validate tol fuel nq lastgood

/-- Termination measure for `rowLoop`: an upper bound on the number of encode
attempts the search loop can still make from a given state.  Without a known
good packet the count first descends (by 2 per failed attempt) and may then
ascend; with one it only ascends until the header capacity `packetsize - 3`
is exceeded. -/
def rowMeasure (ps nq : ℤ) : Option (List ℕ) → ℕ
  | none => (nq + 2).toNat / 2 + (ps - 3).toNat / 2 + 4
  | some _ => (ps - 1 - nq).toNat / 2 + 2

/-- One big-endian signed 32-bit integer from four bytes (`np.frombuffer`
with dtype `'>i4'`). -/
def i32FromBytes (b0 b1 b2 b3 : ℕ) : ℤ :=
  let u := ((b0 * 256 + b1) * 256 + b2) * 256 + b3
  if u < 2147483648 then (u : ℤ) else (u : ℤ) - 4294967296

/-- Embedding of `np.frombuffer(packet, dtype='>i4')`: reinterpret the packet bytes as
big-endian signed 32-bit integers. -/
def bytesToI32s : List ℕ → List ℤ
  | b0 :: b1 :: b2 :: b3 :: rest => i32FromBytes b0 b1 b2 b3 :: bytesToI32s rest
  | _ => []

/-- The row iteration of `_batch_encode` (encode.py lines 140–170): invalid
rows are skipped, keeping their all-zero output row; valid rows run the
search loop and store the resulting packet as `'>i4'` words.  Any uncaught
exception aborts the whole batch. -/
def batchRows (data : Data) (ini packetsize : ℤ) (tol : ℚ) (validate : Bool)
    (fuel : ℕ) : List Bool → ℕ → Option (Except PyErr (List (List ℤ)))
  | [], _ => some (.ok [])
  | v :: vs, i =>
    if v then
      match rowLoop (extractFor data i) packetsize validate tol fuel ini none with
      | none => none
      | some (.error e) => some (.error e)
      | some (.ok packet) =>
        match batchRows data ini packetsize tol validate fuel vs (i + 1) with
        | none => none
        | some (.error e) => some (.error e)
        | some (.ok rest) => some (.ok (bytesToI32s packet :: rest))
    else
      match batchRows data ini packetsize tol validate fuel vs (i + 1) with
      | none => none
      | some (.error e) => some (.error e)
      | some (.ok rest) =>
        some (.ok (List.replicate ((packetsize.fdiv 4).toNat) 0 :: rest))

/-- Embedding of `_batch_encode` (encode.py lines 121–172), with the embedding's fuel
counter threaded into each row's search loop. -/
def batch_encode (data : Data) (ini_quantiles packetsize : ℤ) (tol : ℚ)
    (validate : Bool) (fuel : ℕ) : Option (Except PyErr (List (List ℤ))) :=
  if packetsize % 4 ≠ 0 then some (.error .valueError)
  else if packetsize - ini_quantiles < 3 then some (.error .valueError)
  else batchRows data ini_quantiles packetsize tol validate fuel (validOf data) 0

/-!  ## Reconstructor (decode.py, `quantiles_to_binned` /
`quantiles_to_samples` / `decode_to_samples`)

The `'spline'` interpolation path delegates to scipy
(`utils._monotone_natural_spline` builds on `scipy.interpolate`), an external
collaborator of this repository; it is embedded as an explicit function
parameter `spl` (taking `Xout`, `X`, `Y` and returning `Yout`), while the
`'linear'` path is embedded in full. -/

/-- The interpolation-method flag (`'linear'` / `'spline'`). -/
inductive Method where
  | linear
  | spline
  deriving DecidableEq

/-- Embedding of `dz_eff = z_grid[1] - z_grid[0] if len(z_grid) > 1 else 0`
(decode.py line 94). -/
def dzEffOf (g : List ℚ) : ℚ :=
  if 1 < g.length then g.getD 1 0 - g.getD 0 0 else 0

/-- Embedding of `np.arange(start, stop, step)`: `max(ceil((stop-start)/step), 0)` evenly
stepped values; a zero step raises `ValueError`. -/
def npArange (start stop step : ℚ) : Except PyErr (List ℚ) :=
  if step = 0 then .error .valueError
  else .ok ((List.range (max (⌈(stop - start) / step⌉) 0).toNat).map
    (fun i => start + step * i))

/-- The masked assignment of decode.py lines 103–109: each edge strictly left
of the support gets CDF 0, strictly right gets 1, and the edges inside the
support consume the (normalized) spline values in order. -/
def spreadInside (zq0 zqL : ℚ) : List ℚ → List ℚ → List ℚ
  | [], _ => []
  | e :: es, vals =>
    if e < zq0 then 0 :: spreadInside zq0 zqL es vals
    else if e > zqL then 1 :: spreadInside zq0 zqL es vals
    else
      match vals with
      | v :: vs => v :: spreadInside zq0 zqL es vs
      | [] => 0 :: spreadInside zq0 zqL es []

/-- The final renormalization of `quantiles_to_binned` (decode.py lines
113–117): successive differences are divided by their total mass over the
grid when that mass is positive, else returned unchanged. -/
def normalizePdf (pdf : List ℚ) (dz_eff : ℚ) : List ℚ :=
  let pdf_sum := (pdf.map (· * dz_eff)).sum
  if 0 < pdf_sum then pdf.map (· / pdf_sum) else pdf

/-- The tail of `quantiles_to_binned` after the grid exists (decode.py lines
79–123): range check, CDF interpolation onto bin edges, successive
differences, and renormalization when the pre-normalization mass is positive.
`dzOpt` is the (possibly still unset, i.e. `None`) `dz` variable at line 81;
`dz/2` with `dz = None` raises `TypeError`.  The source returns the bare pdf
when the grid was supplied by the caller; the embedding always returns the
pair (grid, pdf). -/
def gridPdf (zq z_grid : List ℚ) (dzOpt : Option ℚ) (method : Method)
    (force_range : Bool) (spl : List ℚ → List ℚ → List ℚ → List ℚ) :
    Except PyErr (List ℚ × List ℚ) :=
  match pyGet zq 0 with
  | .error e => .error e
  | .ok zq0 =>
  match dzOpt with
  | none => .error .typeError
  | some dz =>
  match pyGet zq (-1) with
  | .error e => .error e
  | .ok zqL =>
  match pyGet z_grid 0 with
  | .error e => .error e
  | .ok zmin_grid =>
  match pyGet z_grid (-1) with
  | .error e => .error e
  | .ok zmax_grid =>
    let zmin_q := zq0 + dz / 2 + 1 / 10000000000
    let zmax_q := zqL - dz / 2 - 1 / 10000000000
    if (zmin_q < zmin_grid ∨ zmax_q > zmax_grid) ∧ ¬force_range then
      .error .valueError
    else
      let Fq := linspaceN 0 1 zq.length
      let dz_eff := dzEffOf z_grid
      let edges := (zmin_grid - dz_eff / 2) :: z_grid.map (· + dz_eff / 2)
      let F_grid : List ℚ :=
        match method with
        | .linear => edges.map (npInterp zq Fq 0 1)
        | .spline =>
          let inside := edges.filter (fun e => decide (zq0 ≤ e) && decide (e ≤ zqL))
          let F_inside := spl inside zq Fq
          let lastF := F_inside.getLastD 0
          let vals :=
            if F_inside ≠ [] ∧ 0 < lastF then F_inside.map (· / lastF)
            else F_inside.map (fun _ => 0)
          spreadInside zq0 zqL edges vals
      let pdf := List.zipWith (· - ·) (F_grid.drop 1) F_grid.dropLast
      .ok (z_grid, normalizePdf pdf dz_eff)

/-- Embedding of `quantiles_to_binned` (decode.py lines 38–123): argument sanity checks,
grid creation from `zvector` / `Nbins` / `dz`, then `gridPdf`. -/
def quantiles_to_binned (z_quantiles : List ℚ) (dzA : Option ℚ)
    (NbinsA : Option ℤ) (zminA zmaxA : Option ℚ) (zvecA : Option (List ℚ))
    (method : Method) (force_range : Bool)
    (spl : List ℚ → List ℚ → List ℚ → List ℚ) :
    Except PyErr (List ℚ × List ℚ) :=
  if force_range ∧ zvecA = none ∧ zminA = none ∧ zmaxA = none then
    .error .valueError
  else if zvecA ≠ none ∧ (dzA ≠ none ∨ NbinsA ≠ none) then .error .valueError
  else if dzA ≠ none ∧ NbinsA ≠ none then .error .valueError
  else
    match zvecA with
    | some zv =>
      match pyGet zv 1, pyGet zv 0 with
      | .ok g1, .ok g0 =>
        gridPdf z_quantiles zv (some (g1 - g0)) method force_range spl
      | .error e, _ => .error e
      | _, .error e => .error e
    | none =>
      match (match zminA with
             | some v => .ok v
             | none => pyGet z_quantiles 0 : Except PyErr ℚ) with
      | .error e => .error e
      | .ok range_min =>
      match (match zmaxA with
             | some v => .ok v
             | none => pyGet z_quantiles (-1) : Except PyErr ℚ) with
      | .error e => .error e
      | .ok range_max =>
        match NbinsA with
        | some nb =>
          let rmin := if range_min = range_max then range_min - 0.01 else range_min
          let rmax := if range_min = range_max then range_max + 0.01 else range_max
          match linspace rmin rmax nb with
          | .error e => .error e
          | .ok z_grid => gridPdf z_quantiles z_grid dzA method force_range spl
        | none =>
          match dzA with
          | some dzv =>
            let rmin := if zminA = none then dzv * ⌊range_min / dzv⌋ else range_min
            let rmax := if zmaxA = none then dzv * ⌈range_max / dzv⌉ else range_max
            match npArange rmin (rmax + dzv / 2) dzv with
            | .error e => .error e
            | .ok z_grid => gridPdf z_quantiles z_grid (some dzv) method force_range spl
          | none => .error .valueError

/-- Embedding of `quantiles_to_samples` (decode.py lines 125–144): inverse-CDF sampling at
the uniform draws `u` (the process-wide `np.random.uniform` output is an
explicit parameter of the embedding). -/
def quantiles_to_samples (zq : List ℚ) (method : Method) (u : List ℚ)
    (spl : List ℚ → List ℚ → List ℚ → List ℚ) : List ℚ :=
  let Fq := linspaceN 0 1 zq.length
  match method with
  | .linear => u.map (npInterp Fq zq (zq.headD 0) (zq.getLastD 0))
  | .spline => spl u Fq zq

/-- One `'>i4'` word back to four big-endian bytes (`int32col[i].tobytes()`). -/
def i32ToBytesBE (x : ℤ) : List ℕ :=
  let u := (x % 4294967296).toNat
  [u / 16777216 % 256, u / 65536 % 256, u / 256 % 256, u % 256]

/-- The row iteration of `decode_to_samples` (decode.py lines 172–180):
all-zero rows keep their `np.nan` fill (embedded as `none` entries); other
rows are decoded and sampled.  The `except ValueError` re-raise keeps the
error kind. -/
def decodeToSamplesRows (Nsamples : ℕ) (method : Method) (us : List (List ℚ))
    (spl : List ℚ → List ℚ → List ℚ → List ℚ) :
    List (List ℤ) → ℕ → Except PyErr (List (List (Option ℚ)))
  | [], _ => .ok []
  | row :: rows, i =>
    if row.any (· ≠ 0) then
      match decode_quantiles ((row.map i32ToBytesBE).flatten) with
      | .error e => .error e
      | .ok qrecovered =>
        let s := quantiles_to_samples qrecovered method (us.getD i []) spl
        match decodeToSamplesRows Nsamples method us spl rows (i + 1) with
        | .error e => .error e
        | .ok rest => .ok (s.map some :: rest)
    else
      match decodeToSamplesRows Nsamples method us spl rows (i + 1) with
      | .error e => .error e
      | .ok rest => .ok (List.replicate Nsamples none :: rest)

/-- Embedding of `decode_to_samples` (decode.py lines 165–182).  After filling the
per-row samples array, the function's final statement is `return PDF`; the
name `PDF` is bound nowhere in the function (nor in the module globals), so
reaching the return raises `NameError`. -/
def decode_to_samples (int32col : List (List ℤ)) (Nsamples : ℕ)
    (method : Method) (us : List (List ℚ))
    (spl : List ℚ → List ℚ → List ℚ → List ℚ) :
    Except PyErr (List (List (Option ℚ))) :=
  match decodeToSamplesRows Nsamples method us spl int32col 0 with
  | .error e => .error e
  | .ok _samples => .error .nameError

/-!  ## Helper lemmas  -/

theorem length_insertAsc (x : ℚ) (l : List ℚ) :
    (insertAsc x l).length = l.length + 1 := by
  induction l with
  | nil => rfl
  | cons y ys ih =>
    simp only [insertAsc]
    split
    · simp
    · simp [ih]

theorem length_npSort (l : List ℚ) : (npSort l).length = l.length := by
  induction l with
  | nil => rfl
  | cons x xs ih => simp [npSort, List.foldr] at ih ⊢; simp [length_insertAsc, ih]

theorem length_quantileGaps (q : List ℚ) :
    (quantileGaps q).length = q.length - 2 := by
  simp only [quantileGaps, length_npSort, List.length_zipWith,
    List.length_dropLast, List.length_drop]
  omega

theorem head?_scanl (f : ℚ → ℕ → ℚ) (b : ℚ) (l : List ℕ) :
    (l.scanl f b).head? = some b := by
  cases l <;> simp [List.scanl]

theorem chain'_scanl_add (eps : ℚ) (heps : 0 ≤ eps) :
    ∀ (ds : List ℕ) (a : ℚ),
      List.Chain' (· ≤ ·) (ds.scanl (fun z (dn : ℕ) => z + (dn : ℚ) * eps) a) := by
  intro ds
  induction ds with
  | nil => intro a; simp [List.scanl]
  | cons d ds ih =>
    intro a
    rw [List.scanl_cons, List.singleton_append, List.chain'_cons']
    refine ⟨?_, ih _⟩
    intro y hy
    rw [head?_scanl] at hy
    cases hy
    have : 0 ≤ (d : ℚ) * eps := mul_nonneg (by positivity) heps
    linarith

theorem getLast?_scanl_isSome (f : ℚ → ℕ → ℚ) (b : ℚ) (l : List ℕ) :
    (l.scanl f b).getLast?.isSome := by
  cases l <;> simp [List.scanl]

theorem pyGet_ok_nonneg (l : List ℚ) (i : ℤ) (h0 : 0 ≤ i)
    (h : i < (l.length : ℤ)) :
    pyGet l i = .ok (l.get ⟨i.toNat, by omega⟩) := by
  unfold pyGet
  rw [dif_neg (by omega), dif_pos h]

theorem pyGet_neg_ok (l : List ℚ) (i : ℤ) (hi : i < 0)
    (h : 0 ≤ (l.length : ℤ) + i) :
    pyGet l i = .ok (l.get ⟨((l.length : ℤ) + i).toNat, by omega⟩) := by
  unfold pyGet
  rw [dif_pos hi, dif_pos h]

theorem pyGet_neg_oob (l : List ℚ) (i : ℤ) (hi : i < 0)
    (h : (l.length : ℤ) + i < 0) :
    pyGet l i = .error .indexError := by
  unfold pyGet
  rw [dif_pos hi, dif_neg (by omega)]

theorem packU16LE_ok {x : ℤ} {a b : ℕ} (h : packU16LE x = .ok (a, b)) :
    0 ≤ x ∧ x < 65536 ∧ (a : ℤ) + 256 * b = x ∧ a < 256 := by
  unfold packU16LE at h
  split at h
  · rename_i hr
    simp only [Except.ok.injEq, Prod.mk.injEq] at h
    obtain ⟨ha, hb⟩ := h
    subst ha; subst hb
    refine ⟨hr.1, hr.2, ?_, Nat.mod_lt _ (by omega)⟩
    have := Nat.mod_add_div x.toNat 256
    omega
  · exact absurd h (by simp)

theorem packU16BE_ok {x : ℤ} {hi lo : ℕ} (h : packU16BE x = .ok (hi, lo)) :
    0 ≤ x ∧ x < 65536 ∧ hi = x.toNat / 256 ∧ lo = x.toNat % 256 ∧
      256 * hi + lo = x.toNat := by
  unfold packU16BE at h
  split at h
  · rename_i hr
    simp only [Except.ok.injEq, Prod.mk.injEq] at h
    obtain ⟨ha, hb⟩ := h
    subst ha; subst hb
    refine ⟨hr.1, hr.2, rfl, rfl, ?_⟩
    have := Nat.mod_add_div x.toNat 256
    omega
  · exact absurd h (by simp)

/-- Inversion of a successful `encode_quantiles` run: every check passed and
the packet has the header-payload-padding shape the source assembles, with
the validation facts available when `validate` was set. -/
theorem encode_ok_inv {q : List ℚ} {ps : ℤ} {v : Bool} {tol : ℚ} {L : ℕ}
    {p : List ℕ} (h : encode_quantiles q ps v tol = .ok (L, p)) :
    ∃ zmin zmax e1 e2 payload a1 a2 b1 b2,
      pyGet q 0 = .ok zmin ∧ pyGet q (-1) = .ok zmax ∧
      (q.length : ℤ) ≤ ps - 3 ∧
      epsMinOf q ps = .ok e1 ∧ e1 ≤ 0.00255 ∧
      epsMin2Of q = .ok e2 ∧
      pyRound (max 0.00001 (max e1 e2) * 100000) ≤ 255 ∧
      buildPayload (max 0.00001 (max e1 e2))
        ((⌊(zmin + 0.01) / 0.0002⌋ : ℚ) * 0.0002 - 0.01)
        ((q.drop 1).dropLast) = .ok payload ∧
      L = payload.length ∧ (L : ℤ) ≤ ps - 5 ∧
      packU16LE ⌊(zmin + 0.01) / 0.0002⌋ = .ok (a1, a2) ∧
      packU16LE ⌈(zmax + 0.01) / 0.0002⌉ = .ok (b1, b2) ∧
      p = (pyRound (max 0.00001 (max e1 e2) * 100000)).toNat :: a1 :: a2 ::
        b1 :: b2 ::
        (payload ++ List.replicate ((ps - 5 - (payload.length : ℤ)).toNat) 0) ∧
      (v = true → ∃ r m, decode_quantiles p = .ok r ∧ r.length = q.length ∧
        listMax ((List.zipWith (· - ·) ((q.drop 1).dropLast)
          ((r.drop 1).dropLast)).map abs) = .ok m ∧ m ≤ tol) := by
  simp only [encode_quantiles] at h
  split at h
  · exact absurd h (by simp)
  rename_i hlen
  split at h
  · exact absurd h (by simp)
  rename_i zmin hz0
  split at h
  · exact absurd h (by simp)
  rename_i zmax hz1
  split at h
  · exact absurd h (by simp)
  rename_i e1 he1
  split at h
  · exact absurd h (by simp)
  rename_i he1b
  split at h
  · exact absurd h (by simp)
  rename_i e2 he2
  split at h
  · exact absurd h (by simp)
  rename_i hrnd
  split at h
  · exact absurd h (by simp)
  rename_i payload hbp
  split at h
  · exact absurd h (by simp)
  rename_i hplen
  split at h
  · exact absurd h (by simp)
  rename_i a1 a2 hx
  split at h
  · exact absurd h (by simp)
  rename_i b1 b2 hy
  split at h
  · -- validate = true
    rename_i hv
    split at h
    · exact absurd h (by simp)
    rename_i r hdec
    split at h
    · exact absurd h (by simp)
    rename_i hrlen
    split at h
    · exact absurd h (by simp)
    rename_i m hmax
    split at h
    · exact absurd h (by simp)
    rename_i hmtol
    simp only [Except.ok.injEq, Prod.mk.injEq] at h
    obtain ⟨hL, hp⟩ := h
    refine ⟨zmin, zmax, e1, e2, payload, a1, a2, b1, b2, hz0, hz1, by omega,
      he1, by linarith [not_lt.mp he1b], he2, not_lt.mp hrnd, hbp, hL.symm,
      by omega, hx, hy, hp.symm, ?_⟩
    intro _
    exact ⟨r, m, by rw [← hp]; exact hdec, by omega, hmax, not_lt.mp hmtol⟩
  · -- validate = false
    rename_i hv
    simp only [Except.ok.injEq, Prod.mk.injEq] at h
    obtain ⟨hL, hp⟩ := h
    refine ⟨zmin, zmax, e1, e2, payload, a1, a2, b1, b2, hz0, hz1, by omega,
      he1, by linarith [not_lt.mp he1b], he2, not_lt.mp hrnd, hbp, hL.symm,
      by omega, hx, hy, hp.symm, ?_⟩
    intro hv2
    exact absurd hv2 hv

theorem pyGet_zero_head {l : List ℚ} {x : ℚ} (h : pyGet l 0 = .ok x) :
    l.head? = some x := by
  match l with
  | [] => unfold pyGet at h; simp at h
  | a :: t =>
    unfold pyGet at h
    rw [dif_neg (by omega), dif_pos (by simp)] at h
    simp only [Except.ok.injEq] at h
    subst h
    rfl

theorem pyGet_neg_one_getLast {l : List ℚ} {x : ℚ} (h : pyGet l (-1) = .ok x) :
    l.getLast? = some x := by
  match l with
  | [] => unfold pyGet at h; simp at h
  | a :: t =>
    unfold pyGet at h
    rw [dif_pos (by omega), dif_pos (by simp)] at h
    simp only [Except.ok.injEq] at h
    subst h
    have hidx : (((a :: t).length : ℤ) + -1).toNat = (a :: t).length - 1 := by
      simp
    rw [List.getLast?_eq_getElem?,
      List.getElem?_eq_getElem (Nat.sub_lt (by simp) one_pos)]
    simp only [List.get_eq_getElem, hidx]

theorem foldl_max_le (l : List ℚ) (acc : ℚ) : acc ≤ l.foldl max acc := by
  induction l generalizing acc with
  | nil => simp
  | cons x xs ih => exact le_trans (le_max_left acc x) (ih (max acc x))

theorem mem_le_foldl_max (l : List ℚ) :
    ∀ (acc a : ℚ), a ∈ l → a ≤ l.foldl max acc := by
  induction l with
  | nil => intro _ _ h; simp at h
  | cons y ys ih =>
    intro acc a ha
    rcases List.mem_cons.mp ha with rfl | ha
    · exact le_trans (le_max_right acc a) (foldl_max_le ys _)
    · exact ih (max acc y) a ha

theorem listMax_ge {l : List ℚ} {m : ℚ} (h : listMax l = .ok m) :
    ∀ a ∈ l, a ≤ m := by
  match l with
  | [] => unfold listMax at h; simp at h
  | x :: xs =>
    unfold listMax at h
    simp only [Except.ok.injEq] at h
    subst h
    intro a ha
    rcases List.mem_cons.mp ha with rfl | ha
    · exact foldl_max_le xs a
    · exact mem_le_foldl_max xs x a ha

theorem mem_zip_sub_mem_zipWith {A B : List ℚ} {ab : ℚ × ℚ}
    (h : ab ∈ A.zip B) : (ab.1 - ab.2) ∈ List.zipWith (· - ·) A B := by
  induction A generalizing B with
  | nil => simp at h
  | cons a As ih =>
    cases B with
    | nil => simp at h
    | cons b Bs =>
      rw [List.zip_cons_cons, List.mem_cons] at h
      rw [List.zipWith_cons_cons, List.mem_cons]
      rcases h with rfl | h
      · exact Or.inl rfl
      · exact Or.inr (ih h)

theorem scanl_cons_shape (f : ℚ → ℕ → ℚ) (b : ℚ) (ds : List ℕ) :
    ∃ t, ds.scanl f b = b :: t := by
  cases ds <;> exact ⟨_, rfl⟩

theorem decodeDeltas_cons (b : ℕ) (rest : List ℕ) :
    decodeDeltas (b :: rest) =
      if b = 0 ∧ rest.all (· = 0) then .ok []
      else if b < 255 then
        match decodeDeltas rest with
        | .error e => .error e
        | .ok ds => .ok (b :: ds)
      else
        match rest with
        | hi :: lo :: rest2 =>
          match decodeDeltas rest2 with
          | .error e => .error e
          | .ok ds => .ok ((256 * hi + lo) :: ds)
        | _ => .error .structError := by
  match rest with
  | [] => simp only [decodeDeltas]
  | [x] => simp only [decodeDeltas]
  | hi :: lo :: rest2 => simp only [decodeDeltas]


theorem floor_le_pyRound (x : ℚ) : ⌊x⌋ ≤ pyRound x := by
  simp only [pyRound]
  split
  · exact le_refl _
  · split
    · omega
    · split
      · exact le_refl _
      · omega

theorem pyRound_le_ceil (x : ℚ) : pyRound x ≤ ⌈x⌉ := by
  simp only [pyRound]
  split
  · exact Int.floor_le_ceil x
  · rename_i h1
    split
    · rename_i h2
      have hx : (⌊x⌋ : ℚ) < x := by
        have h0 : (0 : ℚ) < x - ⌊x⌋ := lt_trans (by norm_num) h2
        linarith
      exact Int.add_one_le_ceil_iff.mpr hx
    · rename_i h2
      split
      · exact Int.floor_le_ceil x
      · have hx : (⌊x⌋ : ℚ) < x := by
          push_neg at h1
          have hr : x - ⌊x⌋ = 1/2 := le_antisymm (not_lt.mp h2) h1
          linarith
        exact Int.add_one_le_ceil_iff.mpr hx

theorem one_le_pyRound {x : ℚ} (h : 1 ≤ x) : 1 ≤ pyRound x :=
  le_trans (Int.le_floor.mpr (by exact_mod_cast h)) (floor_le_pyRound x)

/-!  ## Claim theorems  -/

/-- Claim C10: whenever `M = len(quantiles)` fits the header check
(`M ≤ packetsize - 3`) but the number of interior gaps `M - 2` is smaller
than `max_big_gaps + 1`, `encode_quantiles` raises `IndexError` (not a
`ValueError`) from the gap-threshold lookup `gaps[-max_big_gaps-1]`; the
batch retry policy only catches `ValueError`, so the search loop propagates
this error. -/
theorem encode_gap_lookup_indexerror (q : List ℚ) (ps : ℤ) (v : Bool) (t : ℚ)
    (h2 : 2 ≤ q.length) (hcap : (q.length : ℤ) ≤ ps - 3)
    (hshort : (q.length : ℤ) - 2 < maxBigGapsOf ps q.length + 1) :
    encode_quantiles q ps v t = .error .indexError ∧
    (∀ extract fuel nq lg, extract nq = .ok q →
      rowLoop extract ps v t (fuel + 1) nq lg = some (.error .indexError)) := by
  have hglen : ((quantileGaps q).length : ℤ) = (q.length : ℤ) - 2 := by
    rw [length_quantileGaps]; omega
  have hmbg : 0 ≤ maxBigGapsOf ps q.length := by
    unfold maxBigGapsOf
    exact Int.fdiv_nonneg (by omega) (by omega)
  have hz0 := pyGet_ok_nonneg q 0 (by omega) (by omega)
  have hz1 := pyGet_neg_ok q (-1) (by omega) (by omega)
  have hmin : epsMinOf q ps = .error .indexError := by
    simp only [epsMinOf]
    rw [pyGet_neg_oob _ _ (by omega) (by omega)]
  have henc : encode_quantiles q ps v t = .error .indexError := by
    simp only [encode_quantiles]
    rw [if_neg (by omega)]
    rw [hz0, hz1, hmin]
  refine ⟨henc, ?_⟩
  intro extract fuel nq lg hext
  simp only [rowLoop, hext, henc]

/-- Claim C8: a packet with `eps_code = 1` and payload `[10, 255, 0x01, 0x2C,
5]` followed by zeros decodes to exactly three interior delta records of
magnitudes 10, 300 and 5 (in units of `1e-5`), i.e. consecutive interior
increments `0.0001`, `0.003` and `0.00005`. -/
theorem decode_example_packet :
    decodeDeltas [10, 255, 1, 44, 5, 0, 0, 0, 0, 0, 0] = .ok [10, 300, 5] ∧
    decode_quantiles [1, 50, 0, 60, 0, 10, 255, 1, 44, 5, 0, 0, 0, 0, 0, 0] =
      .ok [0, 1/10000, 31/10000, 63/20000, 1/500] ∧
    (1/10000 : ℚ) - 0 = 0.0001 ∧
    (31/10000 : ℚ) - 1/10000 = 0.003 ∧
    (63/20000 : ℚ) - 31/10000 = 0.00005 := by
  refine ⟨by norm_num [decodeDeltas_cons, decodeDeltas], ?_, by norm_num,
    by norm_num, by norm_num⟩
  norm_num [decode_quantiles, decodeDeltas_cons, decodeDeltas, List.scanl]

/-- Claim C4 (counterexample): a 8-byte packet whose header `zmax` lies below
the accumulated deltas decodes to an array that is not non-decreasing, so
decoded arrays are not always non-decreasing for arbitrary packets of length
at least 5. -/
theorem decode_not_monotone_cex :
    decode_quantiles [1, 50, 0, 0, 0, 10, 0, 0] = .ok [0, 1/10000, -1/100] ∧
    ¬ List.Chain' (· ≤ ·) [(0 : ℚ), 1/10000, -1/100] := by
  refine ⟨by norm_num [decode_quantiles, decodeDeltas_cons, decodeDeltas,
    List.scanl], ?_⟩
  intro hc
  rcases hc with _ | ⟨_, hc⟩
  rcases hc with _ | ⟨hle, _⟩
  norm_num at hle

/-- Claim C4 (amended): for every packet on which `decode_quantiles` succeeds,
the decoded array with the final appended header `zmax` removed is
non-decreasing; the full array is non-decreasing whenever that appended
`zmax` is at least the last accumulated value. -/
theorem decode_monotone (p : List ℕ) (zs : List ℚ)
    (h : decode_quantiles p = .ok zs) :
    List.Chain' (· ≤ ·) zs.dropLast ∧
    (∀ w zm, zs.dropLast.getLast? = some w → zs.getLast? = some zm → w ≤ zm →
      List.Chain' (· ≤ ·) zs) := by
  match p with
  | [] => simp [decode_quantiles] at h
  | [_] => simp [decode_quantiles] at h
  | [_, _] => simp [decode_quantiles] at h
  | [_, _, _] => simp [decode_quantiles] at h
  | [_, _, _, _] => simp [decode_quantiles] at h
  | e :: a :: b :: c :: d :: rest =>
    simp only [decode_quantiles] at h
    cases hd : decodeDeltas rest with
    | error err => rw [hd] at h; exact absurd h (by simp)
    | ok ds =>
      rw [hd] at h
      simp only [Except.ok.injEq] at h
      subst h
      have heps : (0 : ℚ) ≤ (e : ℚ) * 0.00001 := by positivity
      have hchain := chain'_scanl_add ((e : ℚ) * 0.00001) heps ds
        ((((a + 256 * b : ℕ)) : ℚ) * 0.0002 - 0.01)
      constructor
      · rw [List.dropLast_concat]
        exact hchain
      · intro w zm hw hzm hle
        rw [List.dropLast_concat] at hw
        rw [List.getLast?_concat] at hzm
        cases hzm
        rw [List.chain'_append]
        refine ⟨hchain, by simp, ?_⟩
        intro x hx y hy
        rw [hw] at hx
        cases hx
        simp only [List.head?_cons, Option.mem_def, Option.some.injEq] at hy
        cases hy
        exact hle

/-- Claim C4 (witness for the amended theorem): instantiated on a concrete
well-formed packet. -/
theorem decode_monotone_witness :
    List.Chain' (· ≤ ·) ([(0 : ℚ), 1/10000, 1/5000, 3/10000, 1/2500].dropLast) ∧
    List.Chain' (· ≤ ·) [(0 : ℚ), 1/10000, 1/5000, 3/10000, 1/2500] := by
  have h := decode_monotone [1, 50, 0, 52, 0, 10, 10, 10]
    [0, 1/10000, 1/5000, 3/10000, 1/2500]
    (by norm_num [decode_quantiles, decodeDeltas_cons, decodeDeltas,
      List.scanl])
  exact ⟨h.1, h.2 (3/10000) (1/2500) (by simp) (by simp) (by norm_num)⟩

/-- Claim C9: `decode_to_samples` never returns a value — its final statement
returns the unbound name `PDF`, so every call that completes the row loop
raises `NameError`; in particular this holds for a batch whose packets are
all zero. -/
theorem decode_to_samples_never_returns :
    (∀ col ns method us spl r,
      decode_to_samples col ns method us spl ≠ .ok r) ∧
    decode_to_samples [[0, 0]] 3 .linear [] (fun _ _ _ => []) =
      .error .nameError := by
  constructor
  · intro col ns method us spl r h
    unfold decode_to_samples at h
    cases hr : decodeToSamplesRows ns method us spl col 0 <;> rw [hr] at h <;>
      exact absurd h (by simp)
  · norm_num [decode_to_samples, decodeToSamplesRows]

/-- Claim C9 (witness): the universally quantified part instantiated at a
concrete batch. -/
theorem decode_to_samples_never_returns_witness :
    decode_to_samples [[0, 0]] 3 .linear [] (fun _ _ _ => []) ≠
      .ok [[none, none, none]] :=
  decode_to_samples_never_returns.1 [[0, 0]] 3 .linear [] (fun _ _ _ => [])
    [[none, none, none]]


/-- Claim C1: for every strictly increasing quantile array on which
`encode_quantiles` (with validation) succeeds, decoding the produced packet
yields an array of the same length whose interior values are within the
declared tolerance of the originals, and whose first and last elements are
the endpoints quantized at the `2e-4` resolution (floor on the left, ceil on
the right). -/
theorem encode_decode_roundtrip (q : List ℚ) (ps : ℤ) (tol : ℚ) (L : ℕ)
    (p : List ℕ) (hmono : List.Chain' (· < ·) q)
    (h : encode_quantiles q ps true tol = .ok (L, p)) :
    ∃ r, decode_quantiles p = .ok r ∧ r.length = q.length ∧
      (∀ ab ∈ ((q.drop 1).dropLast).zip ((r.drop 1).dropLast),
        |ab.1 - ab.2| ≤ tol) ∧
      (∀ z0, q.head? = some z0 →
        r.head? = some ((⌊(z0 + 0.01) / 0.0002⌋ : ℚ) * 0.0002 - 0.01)) ∧
      (∀ zN, q.getLast? = some zN →
        r.getLast? = some ((⌈(zN + 0.01) / 0.0002⌉ : ℚ) * 0.0002 - 0.01)) := by
  obtain ⟨zmin, zmax, e1, e2, payload, a1, a2, b1, b2, hz0, hz1, _, _, _, _,
    _, hbp, hLdef, hLle, hx, hy, hp, hval⟩ := encode_ok_inv h
  obtain ⟨r, m, hdec, hrlen, hmax, hmtol⟩ := hval rfl
  have hshape := hdec
  rw [hp] at hshape
  simp only [decode_quantiles] at hshape
  refine ⟨r, hdec, hrlen, ?_, ?_, ?_⟩
  · intro ab hab
    have hmem := mem_zip_sub_mem_zipWith hab
    exact le_trans
      (listMax_ge hmax _ (List.mem_map_of_mem abs hmem)) hmtol
  · intro z0 hhead
    have hz0h := pyGet_zero_head hz0
    rw [hhead] at hz0h
    have hzmin : zmin = z0 := by injection hz0h.symm
    rw [← hzmin]
    obtain ⟨_, _, hxv, _⟩ := packU16LE_ok hx
    cases hdd : decodeDeltas
        (payload ++ List.replicate ((ps - 5 - (payload.length : ℤ)).toNat) 0) with
    | error err => rw [hdd] at hshape; exact absurd hshape (by simp)
    | ok ds =>
      rw [hdd] at hshape
      simp only [Except.ok.injEq] at hshape
      obtain ⟨t, ht⟩ := scanl_cons_shape
        (fun z (dn : ℕ) => z + (dn : ℚ) *
          ((((pyRound (max 0.00001 (max e1 e2) * 100000)).toNat : ℕ) : ℚ) * 0.00001))
        (((a1 + 256 * a2 : ℕ) : ℚ) * 0.0002 - 0.01) ds
      rw [← hshape, ht]
      have hcast : ((a1 + 256 * a2 : ℕ) : ℚ) =
          ((⌊(zmin + 0.01) / 0.0002⌋ : ℤ) : ℚ) := by
        exact_mod_cast congrArg (fun z : ℤ => (z : ℚ)) hxv
      simp [hcast]
  · intro zN hlast
    have hz1h := pyGet_neg_one_getLast hz1
    rw [hlast] at hz1h
    have hzmax : zmax = zN := by injection hz1h.symm
    rw [← hzmax]
    obtain ⟨_, _, hyv, _⟩ := packU16LE_ok hy
    cases hdd : decodeDeltas
        (payload ++ List.replicate ((ps - 5 - (payload.length : ℤ)).toNat) 0) with
    | error err => rw [hdd] at hshape; exact absurd hshape (by simp)
    | ok ds =>
      rw [hdd] at hshape
      simp only [Except.ok.injEq] at hshape
      rw [← hshape, List.getLast?_concat]
      have hcast : ((b1 + 256 * b2 : ℕ) : ℚ) =
          ((⌈(zmax + 0.01) / 0.0002⌉ : ℤ) : ℚ) := by
        exact_mod_cast congrArg (fun z : ℤ => (z : ℚ)) hyv
      simp [hcast]

/-- Claim C1 (witness): the round-trip theorem instantiated on a concrete
5-quantile array and an 8-byte packet. -/
theorem encode_decode_roundtrip_witness :
    List.Chain' (· < ·) [(0 : ℚ), 1/10000, 1/5000, 3/10000, 1/2500] ∧
    encode_quantiles [(0 : ℚ), 1/10000, 1/5000, 3/10000, 1/2500] 8 true
      (1/1000) = .ok (3, [1, 50, 0, 52, 0, 10, 10, 10]) ∧
    ∃ r, decode_quantiles [1, 50, 0, 52, 0, 10, 10, 10] = .ok r ∧
      r.length = 5 ∧
      (∀ ab ∈ (([(0 : ℚ), 1/10000, 1/5000, 3/10000, 1/2500].drop 1).dropLast).zip
          ((r.drop 1).dropLast), |ab.1 - ab.2| ≤ (1/1000 : ℚ)) ∧
      (∀ z0, [(0 : ℚ), 1/10000, 1/5000, 3/10000, 1/2500].head? = some z0 →
        r.head? = some ((⌊(z0 + 0.01) / 0.0002⌋ : ℚ) * 0.0002 - 0.01)) ∧
      (∀ zN, [(0 : ℚ), 1/10000, 1/5000, 3/10000, 1/2500].getLast? = some zN →
        r.getLast? = some ((⌈(zN + 0.01) / 0.0002⌉ : ℚ) * 0.0002 - 0.01)) :=
  ⟨by norm_num [List.chain'_cons], by with_unfolding_all rfl,
    encode_decode_roundtrip [(0 : ℚ), 1/10000, 1/5000, 3/10000, 1/2500] 8
      (1/1000) 3 [1, 50, 0, 52, 0, 10, 10, 10]
      (by norm_num [List.chain'_cons]) (by with_unfolding_all rfl)⟩

/-- Claim C5: the 3-byte escape record (marker byte 255 followed by a
big-endian 16-bit magnitude) is emitted exactly when the rounded delta `d`
lies outside the one-byte range `0..254`, and the decoder, on reading the
marker, reads the next two bytes big-endian and recovers the same magnitude
`d` that was encoded. -/
theorem delta_escape_correct (eps prev z : ℚ) (bs : List ℕ) (prev2 : ℚ)
    (d : ℤ) (hd : d = pyRound ((z - prev) / eps))
    (h : encodeDeltaStep eps prev z = .ok (bs, prev2)) :
    (bs.head? = some 255 ↔ ¬(0 ≤ d ∧ d ≤ 254)) ∧
    ((0 ≤ d ∧ d ≤ 254) → bs = [d.toNat]) ∧
    (¬(0 ≤ d ∧ d ≤ 254) →
      bs = [255, d.toNat / 256, d.toNat % 256] ∧
      256 * (d.toNat / 256) + d.toNat % 256 = d.toNat ∧ bs.length = 3) ∧
    (∀ rest, (d ≠ 0 ∨ rest.all (· = 0) = false) →
      decodeDeltas (bs ++ rest) =
        (decodeDeltas rest).map (fun ds => d.toNat :: ds)) := by
  simp only [encodeDeltaStep] at h
  rw [← hd] at h
  split at h
  · -- one-byte record
    rename_i hin
    simp only [Except.ok.injEq, Prod.mk.injEq] at h
    obtain ⟨hbs, _⟩ := h
    subst hbs
    refine ⟨?_, fun _ => rfl, fun hc => absurd hin hc, ?_⟩
    · simp only [List.head?_cons, Option.some.injEq]
      constructor
      · intro hc; omega
      · intro hc; exact absurd hin hc
    · intro rest hnz
      simp only [List.cons_append, List.nil_append]
      rw [decodeDeltas_cons]
      rw [if_neg, if_pos (by omega)]
      · cases hdr : decodeDeltas rest <;> simp [Except.map]
      · rcases hnz with hnz | hnz
        · intro hc; omega
        · intro hc; rw [hnz] at hc; exact absurd hc.2 (by simp)
  · -- escape record
    rename_i hout
    split at h
    · exact absurd h (by simp)
    rename_i hi lo hpk
    simp only [Except.ok.injEq, Prod.mk.injEq] at h
    obtain ⟨hbs, _⟩ := h
    subst hbs
    obtain ⟨hd0, hdlt, hhi, hlo, hsum⟩ := packU16BE_ok hpk
    have hsum2 : 256 * (d.toNat / 256) + d.toNat % 256 = d.toNat := by
      rw [← hhi, ← hlo]; exact hsum
    refine ⟨by simp [hout], fun hc => absurd hc hout,
      fun _ => ⟨by rw [hhi, hlo], hsum2, rfl⟩, ?_⟩
    intro rest _
    simp only [List.cons_append, List.nil_append]
    rw [decodeDeltas_cons]
    rw [if_neg (by simp), if_neg (by omega)]
    show (match decodeDeltas rest with
      | .error e => .error e
      | .ok ds => .ok ((256 * hi + lo) :: ds)) =
      Except.map (fun ds => d.toNat :: ds) (decodeDeltas rest)
    cases hdr : decodeDeltas rest <;> simp [Except.map, hsum]

/-- Claim C5 (witness): an out-of-range delta (`d = 300` at `eps = 1e-5`)
instantiating the escape-record theorem. -/
theorem delta_escape_correct_witness :
    ((300 : ℤ) = pyRound (((3/1000 : ℚ) - 0) / (1/100000))) ∧
    encodeDeltaStep (1/100000) 0 (3/1000) = .ok ([255, 1, 44], 3/1000) ∧
    (([255, 1, 44] : List ℕ).head? = some 255 ↔
      ¬(0 ≤ (300 : ℤ) ∧ (300 : ℤ) ≤ 254)) ∧
    (¬(0 ≤ (300 : ℤ) ∧ (300 : ℤ) ≤ 254) →
      ([255, 1, 44] : List ℕ) = [255, (300 : ℤ).toNat / 256, (300 : ℤ).toNat % 256] ∧
      256 * ((300 : ℤ).toNat / 256) + (300 : ℤ).toNat % 256 = (300 : ℤ).toNat ∧
      ([255, 1, 44] : List ℕ).length = 3) ∧
    decodeDeltas ([255, 1, 44] ++ [7]) =
      (decodeDeltas [7]).map (fun ds => (300 : ℤ).toNat :: ds) := by
  have hd : (300 : ℤ) = pyRound (((3/1000 : ℚ) - 0) / (1/100000)) := by
    with_unfolding_all rfl
  have henc : encodeDeltaStep (1/100000) 0 (3/1000) = .ok ([255, 1, 44], 3/1000) := by
    with_unfolding_all rfl
  have h := delta_escape_correct (1/100000) 0 (3/1000) [255, 1, 44] (3/1000)
    300 hd henc
  exact ⟨hd, henc, h.1, h.2.2.1, h.2.2.2 [7] (Or.inl (by omega))⟩

/-- Claim C2 (counterexample): a 28-point strictly increasing quantile array
with one interior gap of 200 passes step 4's check (`eps_min = 1e-5`), yet
the final epsilon is driven by `eps_min2 = 0.00306` to a rounded code of
`306 > 255`, so `encode_quantiles` fails in the defensive branch after the
max: the branch is reachable even when step 4 has not raised. -/
theorem eps_defensive_reachable_cex :
    epsMinOf (0 :: (List.range 27).map (fun i => 200 + (i : ℚ) * (1/1000))) 80 =
      .ok 0.00001 ∧
    ¬ (0.00001 : ℚ) > 0.00255 ∧
    epsMin2Of (0 :: (List.range 27).map (fun i => 200 + (i : ℚ) * (1/1000))) =
      .ok 0.00306 ∧
    pyRound ((max 0.00001 (max 0.00001 0.00306) : ℚ) * 100000) = 306 ∧
    ¬ pyRound ((max 0.00001 (max 0.00001 0.00306) : ℚ) * 100000) ≤ 255 ∧
    encode_quantiles (0 :: (List.range 27).map (fun i => 200 + (i : ℚ) * (1/1000)))
      80 false (1/1000) = .error .valueError := by
  refine ⟨by with_unfolding_all rfl, by norm_num, by with_unfolding_all rfl,
    by with_unfolding_all rfl, ?_, by with_unfolding_all rfl⟩
  rw [show pyRound ((max 0.00001 (max 0.00001 0.00306) : ℚ) * 100000) = 306 by
    with_unfolding_all rfl]
  omega

/-- Claim C2 (amended): whenever both one-byte bounds hold — step 4's
`eps_min ≤ 2.55e-3` and additionally `eps_min2 ≤ 2.55e-3` — the final epsilon
`max(1e-5, eps_min, eps_min2)` has rounded one-byte code at most 255, so the
defensive error branch after the max cannot fire.  (Without the extra
`eps_min2` bound the branch is reachable; see the counterexample.) -/
theorem eps_code_bounded (q : List ℚ) (ps : ℤ) (e1 e2 : ℚ)
    (h1 : epsMinOf q ps = .ok e1) (h2 : epsMin2Of q = .ok e2)
    (hb1 : e1 ≤ 0.00255) (hb2 : e2 ≤ 0.00255) :
    pyRound (max 0.00001 (max e1 e2) * 100000) ≤ 255 := by
  have hm : max (0.00001 : ℚ) (max e1 e2) ≤ 0.00255 :=
    max_le (by norm_num) (max_le hb1 hb2)
  have hx : max (0.00001 : ℚ) (max e1 e2) * 100000 ≤ 255 := by
    have := mul_le_mul_of_nonneg_right hm (by norm_num : (0 : ℚ) ≤ 100000)
    norm_num at this
    linarith
  calc pyRound (max 0.00001 (max e1 e2) * 100000)
      ≤ ⌈max (0.00001 : ℚ) (max e1 e2) * 100000⌉ := pyRound_le_ceil _
    _ ≤ ⌈(255 : ℚ)⌉ := Int.ceil_le_ceil hx
    _ = 255 := by norm_num

/-- Claim C2 (witness for the amended theorem): instantiated on a concrete
5-quantile array at packet size 8. -/
theorem eps_code_bounded_witness :
    epsMinOf [(0 : ℚ), 1/10000, 1/5000, 3/10000, 1/2500] 8 = .ok 0.00001 ∧
    epsMin2Of [(0 : ℚ), 1/10000, 1/5000, 3/10000, 1/2500] = .ok 0.00001 ∧
    (0.00001 : ℚ) ≤ 0.00255 ∧
    pyRound (max 0.00001 (max 0.00001 0.00001) * 100000) ≤ 255 :=
  ⟨by with_unfolding_all rfl, by with_unfolding_all rfl, by norm_num,
    eps_code_bounded [(0 : ℚ), 1/10000, 1/5000, 3/10000, 1/2500] 8 0.00001
      0.00001 (by with_unfolding_all rfl) (by with_unfolding_all rfl)
      (by norm_num) (by norm_num)⟩

/-- Rows marked invalid keep their all-zero output row in the batch loop. -/
theorem batchRows_invalid (data : Data) (ini ps : ℤ) (tol : ℚ) (v : Bool)
    (fuel : ℕ) :
    ∀ (vs : List Bool) (i0 : ℕ) (out : List (List ℤ)),
      batchRows data ini ps tol v fuel vs i0 = some (.ok out) →
      ∀ j, vs.get? j = some false →
        out.get? j = some (List.replicate ((ps.fdiv 4).toNat) 0) := by
  intro vs
  induction vs with
  | nil => intro i0 out h j hj; simp at hj
  | cons b bs ih =>
    intro i0 out h j hj
    simp only [batchRows] at h
    split at h
    · -- valid row
      rename_i hb
      cases hr : rowLoop (extractFor data i0) ps v tol fuel ini none with
      | none => rw [hr] at h; exact absurd h (by simp)
      | some res =>
        cases res with
        | error e => rw [hr] at h; exact absurd h (by simp)
        | ok packet =>
          rw [hr] at h
          cases hrec : batchRows data ini ps tol v fuel bs (i0 + 1) with
          | none => rw [hrec] at h; exact absurd h (by simp)
          | some res2 =>
            cases res2 with
            | error e => rw [hrec] at h; exact absurd h (by simp)
            | ok rest =>
              rw [hrec] at h
              simp only [Option.some.injEq, Except.ok.injEq] at h
              subst h
              cases j with
              | zero =>
                simp only [List.get?_cons_zero, Option.some.injEq] at hj
                rw [hb] at hj
                exact absurd hj (by simp)
              | succ j =>
                simp only [List.get?_cons_succ] at hj ⊢
                exact ih (i0 + 1) rest hrec j hj
    · -- invalid row
      cases hrec : batchRows data ini ps tol v fuel bs (i0 + 1) with
      | none => rw [hrec] at h; exact absurd h (by simp)
      | some res2 =>
        cases res2 with
        | error e => rw [hrec] at h; exact absurd h (by simp)
        | ok rest =>
          rw [hrec] at h
          simp only [Option.some.injEq, Except.ok.injEq] at h
          subst h
          cases j with
          | zero => simp
          | succ j =>
            simp only [List.get?_cons_succ] at hj ⊢
            exact ih (i0 + 1) rest hrec j hj

/-- Claim C6: in batch encoding every invalid row (zero or non-positive total
histogram mass, or a non-finite sample) is skipped and its output packet is
all-zero; conversely, every packet produced by a successful
`encode_quantiles` call starts with the epsilon code `round(eps*1e5) ≥ 1`
(since `eps ≥ 1e-5`), so it is never the all-zero sentinel. -/
theorem sentinel_zero_rows :
    (∀ data ini ps tol v fuel out i,
      batch_encode data ini ps tol v fuel = some (.ok out) →
      (validOf data).get? i = some false →
      out.get? i = some (List.replicate ((ps.fdiv 4).toNat) 0)) ∧
    (∀ q ps v t L p, encode_quantiles q ps v t = .ok (L, p) →
      ∃ c, p.head? = some c ∧ 1 ≤ c) := by
  constructor
  · intro data ini ps tol v fuel out i h hv
    simp only [batch_encode] at h
    split at h
    · exact absurd h (by simp)
    split at h
    · exact absurd h (by simp)
    exact batchRows_invalid data ini ps tol v fuel (validOf data) 0 out h i hv
  · intro q ps v t L p h
    obtain ⟨zmin, zmax, e1, e2, payload, a1, a2, b1, b2, _, _, _, _, _, _, _,
      _, _, _, _, _, hp, _⟩ := encode_ok_inv h
    refine ⟨(pyRound (max 0.00001 (max e1 e2) * 100000)).toNat, ?_, ?_⟩
    · rw [hp]; rfl
    · have hge : (1 : ℚ) ≤ max 0.00001 (max e1 e2) * 100000 := by
        have hq : (0.00001 : ℚ) ≤ max 0.00001 (max e1 e2) :=
          le_max_left _ _
        have := mul_le_mul_of_nonneg_right hq
          (by norm_num : (0 : ℚ) ≤ 100000)
        norm_num at this
        linarith
      have := one_le_pyRound hge
      omega

/-- Claim C6 (witness): a batch with a single zero-mass histogram row, and a
concrete successful encode whose packet starts with code 1. -/
theorem sentinel_zero_rows_witness :
    ([[(0 : ℤ), 0]].get? 0 =
      some (List.replicate (((8 : ℤ).fdiv 4).toNat) 0)) ∧
    (∃ c, ([1, 50, 0, 52, 0, 10, 10, 10] : List ℕ).head? = some c ∧ 1 ≤ c) :=
  ⟨sentinel_zero_rows.1 (.hist [0, 1/10] [[0, 0]]) 5 8 (1/1000) false 1
      [[0, 0]] 0 (by with_unfolding_all rfl) (by with_unfolding_all rfl),
   sentinel_zero_rows.2 [(0 : ℚ), 1/10000, 1/5000, 3/10000, 1/2500] 8 true
      (1/1000) 3 [1, 50, 0, 52, 0, 10, 10, 10] (by with_unfolding_all rfl)⟩

theorem sum_map_mul (l : List ℚ) (c : ℚ) : (l.map (· * c)).sum = l.sum * c := by
  induction l with
  | nil => simp
  | cons x xs ih => simp [ih, add_mul]

theorem sum_map_div (l : List ℚ) (c : ℚ) : (l.map (· / c)).sum = l.sum / c := by
  induction l with
  | nil => simp
  | cons x xs ih => simp [ih, add_div]

theorem normalizePdf_cases (raw : List ℚ) (dz : ℚ) :
    (0 < (raw.map (· * dz)).sum →
      normalizePdf raw dz = raw.map (· / (raw.map (· * dz)).sum) ∧
      (normalizePdf raw dz).sum * dz = 1) ∧
    (¬ 0 < (raw.map (· * dz)).sum →
      normalizePdf raw dz = raw ∧ (normalizePdf raw dz).sum * dz ≤ 0) := by
  constructor
  · intro hpos
    have hn : normalizePdf raw dz = raw.map (· / (raw.map (· * dz)).sum) := by
      simp only [normalizePdf]
      rw [if_pos hpos]
    refine ⟨hn, ?_⟩
    rw [hn, sum_map_div, div_mul_eq_mul_div, ← sum_map_mul]
    exact div_self (ne_of_gt hpos)
  · intro hneg
    have hn : normalizePdf raw dz = raw := by
      simp only [normalizePdf]
      rw [if_neg hneg]
    refine ⟨hn, ?_⟩
    rw [hn, ← sum_map_mul]
    exact le_of_not_lt hneg

/-- Inversion of a successful `gridPdf` run: the returned pdf is exactly the
renormalization of the successive differences of an interpolated CDF vector
on the grid edges. -/
theorem gridPdf_shape (zq z_grid : List ℚ) (dzOpt : Option ℚ) (m : Method)
    (fr : Bool) (spl : List ℚ → List ℚ → List ℚ → List ℚ)
    (grid pdf : List ℚ)
    (h : gridPdf zq z_grid dzOpt m fr spl = .ok (grid, pdf)) :
    ∃ F : List ℚ,
      pdf = normalizePdf (List.zipWith (· - ·) (F.drop 1) F.dropLast)
        (dzEffOf grid) := by
  simp only [gridPdf] at h
  repeat' split at h
  all_goals try exact Except.noConfusion h
  all_goals
    (simp only [Except.ok.injEq, Prod.mk.injEq] at h
     obtain ⟨hg, hpdf⟩ := h
     subst hg
     exact ⟨_, hpdf.symm⟩)

/-- Conditional normalization behaviour of `gridPdf`: positive
pre-normalization mass gives the renormalized density integrating to exactly
1, otherwise the unnormalized differences come back with integral at most 0. -/
theorem gridPdf_integrates (zq z_grid : List ℚ) (dzOpt : Option ℚ)
    (m : Method) (fr : Bool) (spl : List ℚ → List ℚ → List ℚ → List ℚ)
    (grid pdf : List ℚ)
    (h : gridPdf zq z_grid dzOpt m fr spl = .ok (grid, pdf)) :
    ∃ raw : List ℚ,
      (∃ F : List ℚ, raw = List.zipWith (· - ·) (F.drop 1) F.dropLast) ∧
      pdf = normalizePdf raw (dzEffOf grid) ∧
      (0 < (raw.map (· * dzEffOf grid)).sum →
        pdf = raw.map (· / (raw.map (· * dzEffOf grid)).sum) ∧
        pdf.sum * dzEffOf grid = 1) ∧
      (¬ 0 < (raw.map (· * dzEffOf grid)).sum →
        pdf = raw ∧ pdf.sum * dzEffOf grid ≤ 0) := by
  obtain ⟨F, hpdf⟩ := gridPdf_shape zq z_grid dzOpt m fr spl grid pdf h
  refine ⟨List.zipWith (· - ·) (F.drop 1) F.dropLast, ⟨F, rfl⟩, hpdf, ?_, ?_⟩
  · intro hpos
    refine ⟨?_, ?_⟩
    · rw [hpdf]
      exact ((normalizePdf_cases _ _).1 hpos).1
    · rw [hpdf]
      exact ((normalizePdf_cases _ _).1 hpos).2
  · intro hneg
    refine ⟨?_, ?_⟩
    · rw [hpdf]
      exact ((normalizePdf_cases _ _).2 hneg).1
    · rw [hpdf]
      exact ((normalizePdf_cases _ _).2 hneg).2

/-- Claim C7 (counterexample): with a grid that misses the quantile support
(`force_range=True`), the interpolated CDF is flat, the pre-normalization
mass is zero, no renormalization happens, and the returned density integrates
to 0, not 1. -/
theorem grid_norm_cex :
    quantiles_to_binned [(1 : ℚ)/2, 3/5] none none none none (some [0, 1/10])
      .linear true (fun _ _ _ => []) = .ok ([0, 1/10], [0, 0]) ∧
    ¬ ([(0 : ℚ), 0].sum * dzEffOf [0, 1/10] = 1) := by
  constructor
  · with_unfolding_all rfl
  · rw [show dzEffOf [0, 1/10] = 1/10 by with_unfolding_all rfl]
    norm_num

/-- Claim C7 (amended): every successful `quantiles_to_binned` call returns
the renormalization of the successive differences `raw` of an interpolated
CDF vector; whenever the pre-normalization mass `sum(raw*dz)` is positive the
returned density is `raw` divided by that mass and integrates to exactly 1
over the grid, and otherwise the unnormalized differences `raw` themselves
are returned, with integral at most 0 (0 in the typical all-outside case). -/
theorem quantiles_to_binned_integrates (z_quantiles : List ℚ)
    (dzA : Option ℚ) (NbinsA : Option ℤ) (zminA zmaxA : Option ℚ)
    (zvecA : Option (List ℚ)) (m : Method) (fr : Bool)
    (spl : List ℚ → List ℚ → List ℚ → List ℚ) (grid pdf : List ℚ)
    (h : quantiles_to_binned z_quantiles dzA NbinsA zminA zmaxA zvecA m fr
      spl = .ok (grid, pdf)) :
    ∃ raw : List ℚ,
      (∃ F : List ℚ, raw = List.zipWith (· - ·) (F.drop 1) F.dropLast) ∧
      pdf = normalizePdf raw (dzEffOf grid) ∧
      (0 < (raw.map (· * dzEffOf grid)).sum →
        pdf = raw.map (· / (raw.map (· * dzEffOf grid)).sum) ∧
        pdf.sum * dzEffOf grid = 1) ∧
      (¬ 0 < (raw.map (· * dzEffOf grid)).sum →
        pdf = raw ∧ pdf.sum * dzEffOf grid ≤ 0) := by
  simp only [quantiles_to_binned] at h
  repeat' split at h
  all_goals try exact Except.noConfusion h
  all_goals exact gridPdf_integrates _ _ _ _ _ _ _ _ h

/-- Claim C7 (witness for the amended theorem): a grid covering the support,
where the pre-normalization mass is positive and the returned density
integrates to exactly 1. -/
theorem quantiles_to_binned_integrates_witness :
    quantiles_to_binned [(0 : ℚ), 1] none none none none (some [0, 1/2, 1])
      .linear false (fun _ _ _ => []) = .ok ([0, 1/2, 1], [1/2, 1, 1/2]) ∧
    ∃ raw : List ℚ,
      (∃ F : List ℚ, raw = List.zipWith (· - ·) (F.drop 1) F.dropLast) ∧
      ([(1 : ℚ)/2, 1, 1/2] : List ℚ) = normalizePdf raw (dzEffOf [0, 1/2, 1]) ∧
      (0 < (raw.map (· * dzEffOf [0, 1/2, 1])).sum →
        ([(1 : ℚ)/2, 1, 1/2] : List ℚ) =
          raw.map (· / (raw.map (· * dzEffOf [0, 1/2, 1])).sum) ∧
        [(1 : ℚ)/2, 1, 1/2].sum * dzEffOf [0, 1/2, 1] = 1) ∧
      (¬ 0 < (raw.map (· * dzEffOf [0, 1/2, 1])).sum →
        ([(1 : ℚ)/2, 1, 1/2] : List ℚ) = raw ∧
        [(1 : ℚ)/2, 1, 1/2].sum * dzEffOf [0, 1/2, 1] ≤ 0) :=
  ⟨by with_unfolding_all rfl,
    quantiles_to_binned_integrates [(0 : ℚ), 1] none none none none
      (some [0, 1/2, 1]) .linear false (fun _ _ _ => []) [0, 1/2, 1]
      [1/2, 1, 1/2] (by with_unfolding_all rfl)⟩

/-- The search loop terminates within its measure: from any state, at most
`rowMeasure` further encode attempts happen before the loop exits (the count
first descends by 2 per caught `ValueError`, then ascends by 2 per under-full
success, and the header capacity check bounds the ascent). -/
theorem rowLoop_terminates (extract : ℤ → Except PyErr (List ℚ)) (ps : ℤ)
    (v : Bool) (tol : ℚ)
    (hlen : ∀ n q, extract n = .ok q → (q.length : ℤ) = n) :
    ∀ (fuel : ℕ) (nq : ℤ) (lg : Option (List ℕ)),
      rowMeasure ps nq lg ≤ fuel →
      (rowLoop extract ps v tol fuel nq lg).isSome = true := by
  intro fuel
  induction fuel with
  | zero =>
    intro nq lg hm
    exfalso
    cases lg <;> (simp only [rowMeasure] at hm; omega)
  | succ fuel ih =>
    intro nq lg hm
    cases hx : extract nq with
    | error e => simp [rowLoop, hx]
    | ok q =>
      have hnq : (q.length : ℤ) = nq := hlen nq q hx
      have hnq0 : 0 ≤ nq := by omega
      cases he : encode_quantiles q ps v tol with
      | error e =>
        cases e with
        | valueError =>
          cases lg with
          | some p => simp [rowLoop, hx, he]
          | none =>
            have hrec : rowMeasure ps (nq - 2) none ≤ fuel := by
              simp only [rowMeasure] at hm ⊢
              omega
            have hr := ih (nq - 2) none hrec
            simpa [rowLoop, hx, he] using hr
        | indexError => simp [rowLoop, hx, he]
        | structError => simp [rowLoop, hx, he]
        | typeError => simp [rowLoop, hx, he]
        | nameError => simp [rowLoop, hx, he]
      | ok res =>
        obtain ⟨L, packet⟩ := res
        obtain ⟨z1, z2, e1, e2, pl, a1, a2, b1, b2, h1, h2, hcap, h4, h5, h6,
          h7, h8, hL9, hL10, h11, h12, h13, h14⟩ := encode_ok_inv he
        have hcap2 : nq ≤ ps - 3 := by omega
        by_cases hlt : (L : ℤ) < ps - 5
        · have hrec : rowMeasure ps (nq + 2) (some packet) ≤ fuel := by
            cases lg with
            | none => simp only [rowMeasure] at hm ⊢; omega
            | some p0 => simp only [rowMeasure] at hm ⊢; omega
          have hr := ih (nq + 2) (some packet) hrec
          simpa [rowLoop, hx, he, hlt] using hr
        · have heq : (L : ℤ) = ps - 5 := by omega
          simp [rowLoop, hx, he, hlt, heq]

/-- Claim C3: the per-row search loop of `_batch_encode` cannot run
indefinitely — for every quantile source whose output length equals the
requested count (as both real extractors guarantee, raising for negative
counts), every packet size and every starting count, the loop finishes
within `(nq0+2)/2 + (ps-3)/2 + 4` encode attempts (the embedding's fuel
bound), falling back to the last good packet or surfacing an error. -/
theorem batch_search_loop_bounded (extract : ℤ → Except PyErr (List ℚ))
    (ps : ℤ) (v : Bool) (tol : ℚ) (nq0 : ℤ) (fuel : ℕ)
    (hlen : ∀ n q, extract n = .ok q → (q.length : ℤ) = n)
    (hfuel : (nq0 + 2).toNat / 2 + (ps - 3).toNat / 2 + 4 ≤ fuel) :
    (rowLoop extract ps v tol fuel nq0 none).isSome = true :=
  rowLoop_terminates extract ps v tol hlen fuel nq0 none hfuel

/-- Claim C3 (witness): a concrete constant quantile source at packet size 8,
starting from 5 quantiles with the fuel bound 9. -/
theorem batch_search_loop_bounded_witness :
    (∀ (n : ℤ) (q : List ℚ),
      (if 0 ≤ n then Except.ok (List.replicate n.toNat (0 : ℚ))
        else Except.error PyErr.valueError) = .ok q →
      (q.length : ℤ) = n) ∧
    ((5 + 2 : ℤ).toNat / 2 + ((8 : ℤ) - 3).toNat / 2 + 4 ≤ 9) ∧
    (rowLoop
      (fun n => if 0 ≤ n then Except.ok (List.replicate n.toNat (0 : ℚ))
        else Except.error PyErr.valueError)
      8 false 0 9 5 none).isSome = true := by
  have hlen : ∀ (n : ℤ) (q : List ℚ),
      (if 0 ≤ n then Except.ok (List.replicate n.toNat (0 : ℚ))
        else Except.error PyErr.valueError) = .ok q →
      (q.length : ℤ) = n := by
    intro n q h
    by_cases hn : 0 ≤ n
    · rw [if_pos hn] at h
      simp only [Except.ok.injEq] at h
      subst h
      simp [Int.toNat_of_nonneg hn]
    · rw [if_neg hn] at h
      exact absurd h (by simp)
  exact ⟨hlen, by omega,
    batch_search_loop_bounded _ 8 false 0 5 9 hlen (by omega)⟩

/-- Claim C10 (witness): a 2-element quantile array at the default packet
size 80 hits the `IndexError`. -/
theorem encode_gap_lookup_indexerror_witness :
    2 ≤ ([(0 : ℚ), 1] : List ℚ).length ∧
    ((([(0 : ℚ), 1] : List ℚ).length : ℤ) ≤ 80 - 3) ∧
    ((([(0 : ℚ), 1] : List ℚ).length : ℤ) - 2 <
      maxBigGapsOf 80 ([(0 : ℚ), 1] : List ℚ).length + 1) ∧
    (encode_quantiles [(0 : ℚ), 1] 80 true (1/1000) = .error .indexError ∧
      (∀ extract fuel nq lg, extract nq = .ok [(0 : ℚ), 1] →
        rowLoop extract 80 true (1/1000) (fuel + 1) nq lg =
          some (.error .indexError))) :=
  ⟨by norm_num, by norm_num, by decide,
    encode_gap_lookup_indexerror [(0 : ℚ), 1] 80 true (1/1000) (by norm_num)
      (by norm_num) (by decide)⟩

end ColdPress
